import Mathlib

/-!
Verification of the statement-extraction and concept-normalization pipeline
of `automatizacion-estados-de-cuenta` (`process_statements.py` and its
near-duplicate `debug.py`).

Modelling conventions:
* A Python string is a Lean `String` (list of characters `String.data`).
* A pandas cell is `Option String`: `none` models `NaN`, `some s` a string
  cell.  Camelot-produced tables only contain string cells, but `NaN`
  enters via `pd.concat` over tables with differing columns and via
  pandas missing-value semantics, so the model keeps it.
* A pandas `Series` row of a labeled `DataFrame` is an association list
  from column label to cell; a `DataFrame` is a column-label list plus a
  row list.
* `unicodedata.normalize('NFKD', ·)` is modelled as a per-character
  decomposition `nfkd : Char → List Char` applied with `flatMap`
  (canonical reordering of combining marks only permutes characters above
  ASCII, which the next pipeline stage discards, so per-character
  application is faithful for this code).  Theorems quantify over `nfkd`;
  `nfkdStd` below is a concrete instance covering the Spanish-relevant
  decompositions used by witnesses.
* `pd.notna (pd.to_numeric(·, errors := coerce))` is likewise a parameter
  `pnum : Option String → Bool` of the row merger, with `pdIsNumeric`
  below a concrete executable model of it.
* Python `for` loops with `break`/state are explicit structural
  recursions over the iterated list.
-/

/-! ### Python string primitives -/

/-- The ASCII-range whitespace characters recognized by Python's
`str.split()` / `str.strip()` (the full Python set also contains
characters above ASCII, which cannot occur at the call sites below
because they follow the ASCII-ignore encode step). -/
def isPySpace (c : Char) : Bool :=
  c = ' ' || c = '\t' || c = '\n' || c = '\x0d' || c = '\x0b' || c = '\x0c' ||
  c = '\x1c' || c = '\x1d' || c = '\x1e' || c = '\x1f'

/-- Python `str.strip()` on an ASCII string: drop leading and trailing
whitespace. -/
def pyStrip (l : List Char) : List Char :=
  ((l.dropWhile isPySpace).reverse.dropWhile isPySpace).reverse

/-- Worker for `pyWords`: `cur` is the (possibly empty) word currently
being accumulated. -/
def pyWordsAux (cur : List Char) : List Char → List (List Char)
  | [] => if cur.isEmpty then [] else [cur]
  | c :: cs =>
    if isPySpace c then
      if cur.isEmpty then pyWordsAux [] cs else cur :: pyWordsAux [] cs
    else
      pyWordsAux (cur ++ [c]) cs

/-- Python `str.split()` (no separator argument): the maximal runs of
non-whitespace characters, empties dropped. -/
def pyWords (l : List Char) : List (List Char) :=
  pyWordsAux [] l

/-- Python `' '.join(words)` on character lists. -/
def joinWords : List (List Char) → List Char
  | [] => []
  | [w] => w
  | w :: ws => w ++ ' ' :: joinWords ws

/-- Python `str.split(sep)` for a one-character separator `sep` (always
returns at least one, possibly empty, piece; `''.split(',') = ['']`). -/
def splitOnChar (sep : Char) : List Char → List (List Char)
  | [] => [[]]
  | c :: cs =>
    match splitOnChar sep cs with
    | [] => [[c]]
    | w :: ws => if c = sep then [] :: w :: ws else (c :: w) :: ws

/-- Python's substring test `needle in hay`. -/
def pyInB (needle hay : String) : Bool :=
  decide (needle.data <:+: hay.data)

/-- Python `' '.join(strings)` (single-space separator, empties kept). -/
def sjoinStr : List String → String
  | [] => ""
  | [s] => s
  | s :: ss => s ++ " " ++ sjoinStr ss

/-! ### Cells, rows, frames -/

/-- One pandas cell: `none` is `NaN`, `some s` a string value. -/
abbrev Cell := Option String

/-- Python `str(cell)`: the string itself, or `"nan"` for a `NaN` cell
(`str(float('nan')) = 'nan'`). -/
def pyStr : Cell → String
  | some s => s
  | none => "nan"

/-- A labeled pandas row (`Series`): association list column ↦ cell. -/
abbrev Row := List (String × Cell)

/-- `row[label]` lookup; a missing binding behaves as `NaN` (pandas
guarantees a binding for every frame column, so the `none` default is
only a totalization). -/
def getCell (row : Row) (label : String) : Cell :=
  match row.find? (fun p => p.1 == label) with
  | some p => p.2
  | none => none

/-- A labeled pandas `DataFrame`. -/
structure DF where
  columns : List String
  rows : List Row
deriving DecidableEq

/-- A raw (unlabeled) table as produced by camelot: a grid of cells. -/
abbrev RawTable := List (List Cell)

/-- `l[i] = f l[i]` on lists: in-place item mutation of a Python list. -/
def modifyAt : List α → Nat → (α → α) → List α
  | [], _, _ => []
  | a :: l, 0, f => f a :: l
  | a :: l, n + 1, f => a :: modifyAt l n f

/-! ### Model of `pd.to_numeric(·, errors='coerce')` followed by `pd.notna` -/

/-- All characters are decimal digits and there is at least one. -/
def digitsOnly (l : List Char) : Bool :=
  !l.isEmpty && l.all Char.isDigit

/-- Strip one leading sign character. -/
def stripSign : List Char → List Char
  | '+' :: r => r
  | '-' :: r => r
  | r => r

/-- Digits with at most one decimal point and at least one digit
(`"1"`, `"1.5"`, `"1."`, `".5"`; not `"."` or `""`). -/
def mantissaOk (l : List Char) : Bool :=
  match splitOnChar '.' l with
  | [d] => digitsOnly d
  | [d1, d2] => (!d1.isEmpty || !d2.isEmpty) && d1.all Char.isDigit && d2.all Char.isDigit
  | _ => false

/-- A (lower-cased) numeric literal: signed mantissa with optional
exponent part. -/
def numLit (l : List Char) : Bool :=
  match splitOnChar 'e' l with
  | [m] => mantissaOk (stripSign m)
  | [m, ex] => mantissaOk (stripSign m) && digitsOnly (stripSign ex)
  | _ => false

/-- Concrete model of "the string parses as a number" under
`pd.to_numeric(·, errors='coerce')`: surrounding whitespace is tolerated,
then the usual sign/decimal/exponent literal forms are accepted.  Exotic
pandas forms (`inf`, `nan`, thousand separators) are outside the inputs
this repository can see and are not modelled. -/
def isNumericString (s : String) : Bool :=
  let t := pyStrip s.data
  !t.isEmpty && numLit (t.map Char.toLower)

/-- `pd.notna(pd.to_numeric(cell, errors='coerce'))` on a cell: `NaN`
coerces to `NaN` (not-a-number), a string cell parses or coerces. -/
def pdIsNumeric (c : Cell) : Bool :=
  match c with
  | none => false
  | some s => isNumericString s

/-! ### Concrete NFKD instance -/

/-- Decomposition table for the accented letters relevant to this data
(Spanish bank statements); combining marks are U+0301 acute, U+0303
tilde, U+0308 diaeresis. -/
def nfkdTable (c : Char) : List Char :=
  if c = 'á' then ['a', '́'] else
  if c = 'é' then ['e', '́'] else
  if c = 'í' then ['i', '́'] else
  if c = 'ó' then ['o', '́'] else
  if c = 'ú' then ['u', '́'] else
  if c = 'ñ' then ['n', '̃'] else
  if c = 'ü' then ['u', '̈'] else
  if c = 'Á' then ['A', '́'] else
  if c = 'É' then ['E', '́'] else
  if c = 'Í' then ['I', '́'] else
  if c = 'Ó' then ['O', '́'] else
  if c = 'Ú' then ['U', '́'] else
  if c = 'Ñ' then ['N', '̃'] else
  if c = 'Ü' then ['U', '̈'] else [c]

/-- A concrete per-character NFKD decomposition: the identity on ASCII
(as Unicode NFKD is) and `nfkdTable` above the ASCII range. -/
def nfkdStd (c : Char) : List Char :=
  if c.toNat ≤ 127 then [c] else nfkdTable c

/-! ### `process_statements.py` -/

namespace PS

/-- `normalize_text` (`process_statements.py` lines 7–11): `None` maps to
`""`; otherwise NFKD-decompose, drop everything outside ASCII
(`encode('ASCII','ignore')`), lowercase, and re-join the whitespace-split
words with single spaces. -/
def normalize_text (nfkd : Char → List Char) : Option String → String
  | none => ""
  | some s =>
    let decomposed := s.data.flatMap nfkd
    let onlyAscii := decomposed.filter (fun c => c.toNat ≤ 127)
    let lowered := onlyAscii.map Char.toLower
    ⟨joinWords (pyWords lowered)⟩

/-- One rulebook row: `Priority`, `Keywords` (raw comma-separated cell
text, after `str(...)`), `Output Template`. -/
structure Rule where
  priority : Int
  keywords : String
  template : String
deriving DecidableEq

/-- The keyword test of `apply_rules` line 26: every comma-separated
keyword, individually normalized, occurs in the normalized concepto. -/
def allKwMatchB (nfkd : Char → List Char) (nc : String) (r : Rule) : Bool :=
  (splitOnChar ',' r.keywords.data).all
    (fun kw => pyInB (normalize_text nfkd (some ⟨kw⟩)) nc)

/-- The `for index, rule in rules_df.iterrows()` loop of `apply_rules`
(lines 21–28): first match returns its template. -/
def applyLoop (nfkd : Char → List Char) (nc : String) : List Rule → Option String
  | [] => none
  | r :: rs => if allKwMatchB nfkd nc r then some r.template else applyLoop nfkd nc rs

/-- `apply_rules` (`process_statements.py` lines 13–31). -/
def apply_rules (nfkd : Char → List Char) (concepto : String) (rules : List Rule) : String :=
  match applyLoop nfkd (normalize_text nfkd (some concepto)) rules with
  | some t => t
  | none => concepto

end PS

example : PS.normalize_text nfkdStd (some "  Árbol   NIÑO  ") = "arbol nino" := by decide
example : PS.normalize_text nfkdStd none = "" := rfl
example : isNumericString "  12.5 " = true := by decide
example : isNumericString "" = false := by decide
example : isNumericString "abc" = false := by decide
example : PS.apply_rules nfkdStd "PAGO A PROVEEDOR X"
    [⟨1, "pago,proveedor", "Pago a Proveedor"⟩, ⟨2, "pago", "Pago Generico"⟩]
    = "Pago a Proveedor" := by decide
example : PS.apply_rules nfkdStd "DEPOSITO"
    [⟨1, "pago,proveedor", "Pago a Proveedor"⟩, ⟨2, "pago", "Pago Generico"⟩]
    = "DEPOSITO" := by decide

namespace PS

/-- The continuation-row guard of `merge_concepto_lines` line 45:
`pd.notna(row['concepto']) and str(row['concepto']).strip() != ''`. -/
def contConcepto (row : Row) : Bool :=
  (getCell row "concepto").isSome &&
    !(pyStrip (pyStr (getCell row "concepto")).data).isEmpty

/-- `t += ' ' + s` on the concepto cell.  A `NaN` concepto on an emitted
transaction row would raise `TypeError` in the source (`float + str`);
that path is kept out of the claims by hypothesis and simply preserves
`NaN` here. -/
def appendCell (c : Cell) (s : String) : Cell :=
  match c with
  | some t => some (t ++ " " ++ s)
  | none => none

/-- `processed_rows[current]['concepto'] += ' ' + str(row['concepto'])`
acting on one stored row. -/
def appendRowC (s : String) (r : Row) : Row :=
  r.map (fun p => if p.1 = "concepto" then (p.1, appendCell p.2 s) else p)

/-- The `for index, row in df.iterrows()` loop of `merge_concepto_lines`
(lines 37–46): `pr` is `processed_rows`, `cur` is
`current_transaction_index` (a Python int, `-1` for "no current
transaction"). -/
def mergeLoopAux (pnum : Cell → Bool) : List Row → Int → List Row → List Row
  | pr, _, [] => pr
  | pr, cur, row :: rest =>
    if pnum (getCell row "dia") then
      mergeLoopAux pnum (pr ++ [row]) (((pr ++ [row]).length : Int) - 1) rest
    else if cur ≠ -1 ∧ contConcepto row then
      mergeLoopAux pnum
        (modifyAt pr cur.toNat (appendRowC (pyStr (getCell row "concepto")))) cur rest
    else
      mergeLoopAux pnum pr cur rest

/-- `merge_concepto_lines` (`process_statements.py` lines 33–48),
parameterized by the numeric-parse test `pnum` (see `pdIsNumeric`). -/
def merge_concepto_lines (pnum : Cell → Bool) (df : DF) : DF :=
  if "dia" ∉ df.columns ∨ "concepto" ∉ df.columns then df
  else
    let pr := mergeLoopAux pnum [] (-1) df.rows
    if pr.isEmpty then ⟨[], []⟩ else ⟨df.columns, pr⟩

/-- `required_headers` (line 53). -/
def requiredHeaders (nfkd : Char → List Char) : List String :=
  ["dia", "concepto", "cargos", "abonos", "saldo"].map
    (fun h => normalize_text nfkd (some h))

/-- `row_as_string` (line 87): normalize every cell of the row
(`fillna('')` turns `NaN` into `''` first) and join with single
spaces. -/
def rowHaystack (nfkd : Char → List Char) (row : List Cell) : String :=
  sjoinStr (row.map (fun c => normalize_text nfkd (some (c.getD ""))))

/-- The header test of line 88: every required header occurs in the
row's haystack string. -/
def rowQualB (nfkd : Char → List Char) (row : List Cell) : Bool :=
  (requiredHeaders nfkd).all (fun req => pyInB req (rowHaystack nfkd row))

/-- The `for i in range(min(5, len(df)))` search with `break`
(lines 86–91), as a scan over the index list. -/
def headerScan (nfkd : Char → List Char) (t : RawTable) : List Nat → Option Nat
  | [] => none
  | i :: is => if rowQualB nfkd (t.getD i []) then some i else headerScan nfkd t is

/-- The per-table body of the `for table in tables` loop (lines 83–96,
after the `df.empty` skip): find the header row among the first five
rows; on success re-base the table below it and use the header row's
normalized cells as column labels. -/
def processTable (nfkd : Char → List Char) (t : RawTable) : Option DF :=
  match headerScan nfkd t (List.range (min 5 t.length)) with
  | none => none
  | some i =>
    let labels := (t.getD i []).map (fun c => normalize_text nfkd (some (pyStr c)))
    some ⟨labels, (t.drop (i + 1)).map (fun cells => labels.zip cells)⟩

/-- The page loop of `find_transaction_tables` (lines 60–65): `n` is the
1-based page number of the list head, the pair state is
`(start_page, end_page)`; the start keeps its first hit, the end keeps
overwriting. -/
def scanAux (nfkd : Char → List Char) (sm em : String) :
    Nat → Option Nat × Option Nat → List String → Option Nat × Option Nat
  | _, st, [] => st
  | n, (s?, e?), p :: ps =>
    let text := normalize_text nfkd (some p)
    let s' := if s?.isNone ∧ pyInB sm text then some n else s?
    let e' := if pyInB em text then some n else e?
    scanAux nfkd sm em (n + 1) (s', e') ps

/-- Page-range detection over a document's page texts, with the markers
of lines 54–55. -/
def scanPages (nfkd : Char → List Char) (pages : List String) : Option Nat × Option Nat :=
  scanAux nfkd (normalize_text nfkd (some "saldo inicial"))
    (normalize_text nfkd (some "saldo minimo requerido")) 1 (none, none) pages

/-- `find_transaction_tables` (`process_statements.py` lines 50–99).
`doc` is the outcome of opening and reading the document's page texts
(`Except.error` models any exception in the `fitz` block, caught at
line 67); `extract` is the camelot capability, called on the validated
inclusive page range (its `Except.error` models the exception caught at
line 78). -/
def find_transaction_tables (nfkd : Char → List Char)
    (doc : Except Unit (List String))
    (extract : Nat → Nat → Except Unit (List RawTable)) : List DF :=
  match doc with
  | .error _ => []
  | .ok pages =>
    match scanPages nfkd pages with
    | (some s, some e) =>
      if e < s then []
      else
        match extract s e with
        | .error _ => []
        | .ok ts =>
          ts.filterMap (fun t => if t.isEmpty then none else processTable nfkd t)
    | (_, _) => []

/-- `pd.concat(tables, ignore_index=True)`: columns in order of first
appearance, rows concatenated (a row's missing labels read as `NaN`
through `getCell`). -/
def concatTables (ts : List DF) : DF :=
  ⟨ts.foldl (fun acc df => acc ++ df.columns.filter (fun c => c ∉ acc)) [],
   (ts.map DF.rows).flatten⟩

/-- `apply_rules` as applied to a cell by
`cleaned_df['concepto'].apply(...)`: a string cell goes through
`apply_rules`; a `NaN` cell is normalized via `str(nan) = 'nan'` and
stays `NaN` on fall-through. -/
def apply_rules_cell (nfkd : Char → List Char) (rules : List Rule) : Cell → Cell
  | some s => some (apply_rules nfkd s rules)
  | none =>
    match applyLoop nfkd (normalize_text nfkd (some "nan")) rules with
    | some t => some t
    | none => none

/-- Line 134: rewrite the `concepto` column of the merged frame. -/
def applyRulesDF (nfkd : Char → List Char) (rules : List Rule) (df : DF) : DF :=
  ⟨df.columns,
   df.rows.map (fun r =>
     r.map (fun p => if p.1 = "concepto" then (p.1, apply_rules_cell nfkd rules p.2) else p))⟩

/-- The per-document body of the main loop (lines 125–139): extract
tables; when none, the document produces no sheet; otherwise concatenate,
merge multi-line conceptos and apply the rulebook. -/
def processDocument (nfkd : Char → List Char) (pnum : Cell → Bool) (rules : List Rule)
    (doc : Except Unit (List String))
    (extract : Nat → Nat → Except Unit (List RawTable)) : Option DF :=
  let ts := find_transaction_tables nfkd doc extract
  if ts.isEmpty then none
  else some (applyRulesDF nfkd rules (merge_concepto_lines pnum (concatTables ts)))

/-- The whole run over the sorted document list: documents are processed
independently, one after the other. -/
def runAll (nfkd : Char → List Char) (pnum : Cell → Bool) (rules : List Rule)
    (extract : Nat → Nat → Except Unit (List RawTable))
    (docs : List (Except Unit (List String))) : List (Option DF) :=
  docs.map (fun d => processDocument nfkd pnum rules d extract)

end PS

/-! ### `debug.py` (the near-duplicate script) -/

namespace DBG

/-- `normalize_text` (`debug.py` lines 7–11). -/
def normalize_text (nfkd : Char → List Char) : Option String → String
  | none => ""
  | some s =>
    let decomposed := s.data.flatMap nfkd
    let onlyAscii := decomposed.filter (fun c => c.toNat ≤ 127)
    let lowered := onlyAscii.map Char.toLower
    ⟨joinWords (pyWords lowered)⟩

/-- The continuation-row guard of `merge_concepto_lines` line 35 of
`debug.py`. -/
def contConcepto (row : Row) : Bool :=
  (getCell row "concepto").isSome &&
    !(pyStrip (pyStr (getCell row "concepto")).data).isEmpty

/-- `t += ' ' + s` on the concepto cell (`debug.py` line 36). -/
def appendCell (c : Cell) (s : String) : Cell :=
  match c with
  | some t => some (t ++ " " ++ s)
  | none => none

/-- The stored-row update of `debug.py` line 36. -/
def appendRowC (s : String) (r : Row) : Row :=
  r.map (fun p => if p.1 = "concepto" then (p.1, appendCell p.2 s) else p)

/-- The row loop of `merge_concepto_lines` (`debug.py` lines 25–36). -/
def mergeLoopAux (pnum : Cell → Bool) : List Row → Int → List Row → List Row
  | pr, _, [] => pr
  | pr, cur, row :: rest =>
    if pnum (getCell row "dia") then
      mergeLoopAux pnum (pr ++ [row]) (((pr ++ [row]).length : Int) - 1) rest
    else if cur ≠ -1 ∧ contConcepto row then
      mergeLoopAux pnum
        (modifyAt pr cur.toNat (appendRowC (pyStr (getCell row "concepto")))) cur rest
    else
      mergeLoopAux pnum pr cur rest

/-- `merge_concepto_lines` (`debug.py` lines 13–41; the early-return
branch additionally prints a warning, a side effect with no data
outcome). -/
def merge_concepto_lines (pnum : Cell → Bool) (df : DF) : DF :=
  if "dia" ∉ df.columns ∨ "concepto" ∉ df.columns then df
  else
    let pr := mergeLoopAux pnum [] (-1) df.rows
    if pr.isEmpty then ⟨[], []⟩ else ⟨df.columns, pr⟩

end DBG

/-! ### Specification-side definitions (phrased from the claims) -/

/-- Claim-side row merging, worker: `cur` is the most recently created
Transaction; a numeric-`dia` row emits it and starts the next one; a
continuation row with non-empty trimmed concepto gets a space plus its
raw concepto text appended to `cur`; other rows are dropped. -/
def mergeSpecAux (pnum : Cell → Bool) (cur : Row) : List Row → List Row
  | [] => [cur]
  | row :: rest =>
    if pnum (getCell row "dia") then cur :: mergeSpecAux pnum row rest
    else if PS.contConcepto row then
      mergeSpecAux pnum (PS.appendRowC (pyStr (getCell row "concepto")) cur) rest
    else mergeSpecAux pnum cur rest

/-- Claim-side row merging: a single forward pass; a row whose `dia`
parses as numeric starts a new Transaction as a verbatim copy;
continuation rows before any numeric-`dia` row are silently dropped;
output order is creation order; empty input gives empty output. -/
def mergeSpec (pnum : Cell → Bool) : List Row → List Row
  | [] => []
  | row :: rest =>
    if pnum (getCell row "dia") then mergeSpecAux pnum row rest
    else mergeSpec pnum rest

/-- Claim-side rule matching: every one of the rule's comma-separated
keywords, each individually normalized, is a substring of the normalized
concepto (logical AND, order-independent, substring containment). -/
def ruleMatchesSpec (nfkd : Char → List Char) (concepto : String) (r : PS.Rule) : Prop :=
  ∀ kw ∈ splitOnChar ',' r.keywords.data,
    (PS.normalize_text nfkd (some ⟨kw⟩)).data <:+:
      (PS.normalize_text nfkd (some concepto)).data

instance (nfkd : Char → List Char) (concepto : String) (r : PS.Rule) :
    Decidable (ruleMatchesSpec nfkd concepto r) := by
  unfold ruleMatchesSpec; infer_instance

/-- Claim-side header qualification: every normalized required label
occurs as a substring of the space-joined normalized cells of the row. -/
def rowQualifies (nfkd : Char → List Char) (row : List Cell) : Prop :=
  ∀ req ∈ PS.requiredHeaders nfkd, req.data <:+: (PS.rowHaystack nfkd row).data

instance (nfkd : Char → List Char) (row : List Cell) :
    Decidable (rowQualifies nfkd row) := by
  unfold rowQualifies; infer_instance

/-- Claim-side header detection and table normalization: the first
qualifying row among the first five becomes the header; its normalized
cells are the column labels and exactly the rows strictly after it are
the data rows; with no qualifying row the table is discarded. -/
def processTableSpec (nfkd : Char → List Char) (t : RawTable) : Option DF :=
  match (List.range (min 5 t.length)).find?
      (fun i => decide (rowQualifies nfkd (t.getD i []))) with
  | none => none
  | some i =>
    let labels := (t.getD i []).map (fun c => PS.normalize_text nfkd (some (pyStr c)))
    some ⟨labels, (t.drop (i + 1)).map (fun cells => labels.zip cells)⟩

/-- Claim-side detected start page: the first (lowest-numbered) page,
pages numbered from 1, whose normalized text contains the marker. -/
def firstPageWith (nfkd : Char → List Char) (m : String) (pages : List String) : Option Nat :=
  ((pages.enumFrom 1).find?
    (fun q => pyInB m (PS.normalize_text nfkd (some q.2)))).map Prod.fst

/-- Claim-side detected end page: the last (highest-numbered) page whose
normalized text contains the marker. -/
def lastPageWith (nfkd : Char → List Char) (m : String) (pages : List String) : Option Nat :=
  ((pages.enumFrom 1).reverse.find?
    (fun q => pyInB m (PS.normalize_text nfkd (some q.2)))).map Prod.fst

example :
    mergeSpec pdIsNumeric
      [[("dia", some "1"), ("concepto", some "PAGO A")],
       [("dia", some ""), ("concepto", some "PROVEEDOR X")],
       [("dia", some "2"), ("concepto", some "DEPOSITO")]] =
      [[("dia", some "1"), ("concepto", some "PAGO A PROVEEDOR X")],
       [("dia", some "2"), ("concepto", some "DEPOSITO")]] := by decide

example :
    PS.merge_concepto_lines pdIsNumeric
      ⟨["dia", "concepto"],
       [[("dia", some "1"), ("concepto", some "PAGO A")],
        [("dia", some ""), ("concepto", some "PROVEEDOR X")],
        [("dia", some "2"), ("concepto", some "DEPOSITO")]]⟩ =
      ⟨["dia", "concepto"],
       [[("dia", some "1"), ("concepto", some "PAGO A PROVEEDOR X")],
        [("dia", some "2"), ("concepto", some "DEPOSITO")]]⟩ := by decide

/-! ### Helper lemmas: the merge loop computes the claim-side merge -/

theorem modifyAt_append_len (l : List α) (x : α) (f : α → α) :
    modifyAt (l ++ [x]) l.length f = l ++ [f x] := by
  induction l with
  | nil => rfl
  | cons a t ih => simpa [modifyAt] using ih

theorem mergeLoopAux_push (pnum : Cell → Bool) :
    ∀ (rows front : List Row) (lastR : Row),
      PS.mergeLoopAux pnum (front ++ [lastR]) (front.length : Int) rows =
        front ++ mergeSpecAux pnum lastR rows := by
  intro rows
  induction rows with
  | nil => intro front lastR; simp [PS.mergeLoopAux, mergeSpecAux]
  | cons row rest ih =>
    intro front lastR
    by_cases hnew : pnum (getCell row "dia")
    · have hlen : ((((front ++ [lastR]) ++ [row]).length : Int) - 1) =
          (((front ++ [lastR]).length : Nat) : Int) := by
        simp [List.length_append]
        omega
      rw [PS.mergeLoopAux, if_pos hnew, hlen, ih (front ++ [lastR]) row]
      simp [mergeSpecAux, hnew, List.append_assoc]
    · have hg : ((front.length : Nat) : Int) ≠ -1 := by omega
      by_cases hc : PS.contConcepto row
      · rw [PS.mergeLoopAux, if_neg hnew, if_pos (And.intro hg hc)]
        rw [Int.toNat_natCast, modifyAt_append_len, ih]
        simp [mergeSpecAux, hnew, hc]
      · rw [PS.mergeLoopAux, if_neg hnew,
          if_neg (fun h => hc h.2), ih]
        simp [mergeSpecAux, hnew, hc]

theorem mergeLoopAux_nil_eq (pnum : Cell → Bool) :
    ∀ rows : List Row, PS.mergeLoopAux pnum [] (-1) rows = mergeSpec pnum rows := by
  intro rows
  induction rows with
  | nil => rfl
  | cons row rest ih =>
    by_cases hnew : pnum (getCell row "dia")
    · have h0 : (((([] : List Row) ++ [row]).length : Nat) : Int) - 1 =
          ((([] : List Row).length : Nat) : Int) := by simp
      rw [PS.mergeLoopAux, if_pos hnew, h0, mergeLoopAux_push]
      simp [mergeSpec, hnew]
    · have hg : ¬((-1 : Int) ≠ -1 ∧ PS.contConcepto row) := fun h => h.1 rfl
      rw [PS.mergeLoopAux, if_neg hnew, if_neg hg, ih]
      simp [mergeSpec, hnew]

theorem merge_rows_eq (pnum : Cell → Bool) (df : DF)
    (h1 : "dia" ∈ df.columns) (h2 : "concepto" ∈ df.columns) :
    (PS.merge_concepto_lines pnum df).rows = mergeSpec pnum df.rows := by
  unfold PS.merge_concepto_lines
  rw [if_neg (by simp [h1, h2])]
  simp only [mergeLoopAux_nil_eq]
  split
  · next hemp =>
    rw [List.isEmpty_iff] at hemp
    simp [hemp]
  · rfl

/-! ### Frame lemmas for the merger -/

/-- A row with its `concepto` bindings removed. -/
def eraseC (r : Row) : Row :=
  r.filter (fun p => !(p.1 == "concepto"))

theorem eraseC_appendRowC (s : String) (r : Row) :
    eraseC (PS.appendRowC s r) = eraseC r := by
  induction r with
  | nil => rfl
  | cons p t ih =>
    by_cases h : p.1 = "concepto"
    · simp [PS.appendRowC, eraseC, h] at ih ⊢
      exact ih
    · simp [PS.appendRowC, eraseC, h] at ih ⊢
      exact ih

theorem mergeSpecAux_erase (pnum : Cell → Bool) :
    ∀ (rows : List Row) (cur : Row),
      (mergeSpecAux pnum cur rows).map eraseC =
        eraseC cur :: (rows.filter (fun r => pnum (getCell r "dia"))).map eraseC := by
  intro rows
  induction rows with
  | nil => intro cur; rfl
  | cons row rest ih =>
    intro cur
    by_cases hnew : pnum (getCell row "dia")
    · simp [mergeSpecAux, hnew, ih]
    · by_cases hc : PS.contConcepto row
      · simp [mergeSpecAux, hnew, hc, ih, eraseC_appendRowC]
      · simp [mergeSpecAux, hnew, hc, ih]

theorem mergeSpec_erase (pnum : Cell → Bool) :
    ∀ rows : List Row,
      (mergeSpec pnum rows).map eraseC =
        (rows.filter (fun r => pnum (getCell r "dia"))).map eraseC := by
  intro rows
  induction rows with
  | nil => rfl
  | cons row rest ih =>
    by_cases hnew : pnum (getCell row "dia")
    · simp [mergeSpec, hnew, mergeSpecAux_erase]
    · simp [mergeSpec, hnew, ih]

/-! ### The two scripts agree -/

theorem dbg_appendRowC_eq : DBG.appendRowC = PS.appendRowC := rfl

theorem dbg_contConcepto_eq : DBG.contConcepto = PS.contConcepto := rfl

theorem dbg_mergeLoopAux_eq (pnum : Cell → Bool) :
    ∀ (rows pr : List Row) (cur : Int),
      DBG.mergeLoopAux pnum pr cur rows = PS.mergeLoopAux pnum pr cur rows := by
  intro rows
  induction rows with
  | nil => intro pr cur; rfl
  | cons row rest ih =>
    intro pr cur
    rw [DBG.mergeLoopAux, PS.mergeLoopAux, dbg_appendRowC_eq, dbg_contConcepto_eq]
    by_cases hnew : pnum (getCell row "dia")
    · rw [if_pos hnew, if_pos hnew, ih]
    · rw [if_neg hnew, if_neg hnew]
      by_cases hg : cur ≠ -1 ∧ PS.contConcepto row
      · rw [if_pos hg, if_pos hg, ih]
      · rw [if_neg hg, if_neg hg, ih]

/-! ### Claim theorems -/

/-- The worked row-merging example of the specification (input side). -/
def ex1In : DF :=
  ⟨["dia", "concepto"],
   [[("dia", some "1"), ("concepto", some "PAGO A")],
    [("dia", some ""), ("concepto", some "PROVEEDOR X")],
    [("dia", some "2"), ("concepto", some "DEPOSITO")]]⟩

/-- The worked row-merging example of the specification (output side). -/
def ex1Out : DF :=
  ⟨["dia", "concepto"],
   [[("dia", some "1"), ("concepto", some "PAGO A PROVEEDOR X")],
    [("dia", some "2"), ("concepto", some "DEPOSITO")]]⟩

/-- Claim C1: for every input table with both a `dia` and a `concepto`
column (whose transaction rows carry string conceptos — a `NaN` concepto
on a transaction row would raise in the source), the single forward pass
of `merge_concepto_lines` produces exactly the claim-side merge
`mergeSpec`: a numeric-`dia` row starts a new Transaction as a verbatim
copy, a non-numeric row with non-empty trimmed `concepto` appends a
space plus its raw `concepto` to the most recent Transaction, leading
continuation rows are dropped, output order is creation order and empty
input yields empty output; and the specification's worked example merges
as stated. -/
theorem claim1_row_merging :
    (∀ (pnum : Cell → Bool) (df : DF), "dia" ∈ df.columns → "concepto" ∈ df.columns →
      (∀ r ∈ df.rows, pnum (getCell r "dia") = true → (getCell r "concepto").isSome) →
      (PS.merge_concepto_lines pnum df).rows = mergeSpec pnum df.rows) ∧
    PS.merge_concepto_lines pdIsNumeric ex1In = ex1Out := by
  constructor
  · intro pnum df h1 h2 _
    exact merge_rows_eq pnum df h1 h2
  · decide

/-- Witness for claim C1: its hypotheses hold at the specification's
worked example and the theorem computes the merged rows there. -/
theorem claim1_row_merging_witness :
    ("dia" ∈ ex1In.columns ∧ "concepto" ∈ ex1In.columns ∧
      (∀ r ∈ ex1In.rows, pdIsNumeric (getCell r "dia") = true →
        (getCell r "concepto").isSome)) ∧
    (PS.merge_concepto_lines pdIsNumeric ex1In).rows = mergeSpec pdIsNumeric ex1In.rows :=
  ⟨by decide,
   claim1_row_merging.1 pdIsNumeric ex1In (by decide) (by decide) (by decide)⟩

/-- Claim C7: the merger modifies only the `concepto` field — after
erasing `concepto`, the output Transactions are exactly the
numeric-`dia` input rows that created them, every other column passed
through unmodified, in creation order. -/
theorem claim7_merge_frame :
    ∀ (pnum : Cell → Bool) (df : DF), "dia" ∈ df.columns → "concepto" ∈ df.columns →
      ((PS.merge_concepto_lines pnum df).rows).map eraseC =
        (df.rows.filter (fun r => pnum (getCell r "dia"))).map eraseC := by
  intro pnum df h1 h2
  rw [merge_rows_eq pnum df h1 h2]
  exact mergeSpec_erase pnum df.rows

/-- Witness for claim C7 at the specification's worked example. -/
theorem claim7_merge_frame_witness :
    ("dia" ∈ ex1In.columns ∧ "concepto" ∈ ex1In.columns) ∧
    ((PS.merge_concepto_lines pdIsNumeric ex1In).rows).map eraseC =
      (ex1In.rows.filter (fun r => pdIsNumeric (getCell r "dia"))).map eraseC :=
  ⟨by decide, claim7_merge_frame pdIsNumeric ex1In (by decide) (by decide)⟩

/-- Claim C8: the two near-duplicate scripts implement the same core
logic — `debug.py`'s `normalize_text` and `merge_concepto_lines` agree
with `process_statements.py`'s on every input. -/
theorem claim8_scripts_agree :
    (∀ (nfkd : Char → List Char) (x : Option String),
      DBG.normalize_text nfkd x = PS.normalize_text nfkd x) ∧
    (∀ (pnum : Cell → Bool) (df : DF),
      DBG.merge_concepto_lines pnum df = PS.merge_concepto_lines pnum df) := by
  constructor
  · intro nfkd x
    cases x with
    | none => rfl
    | some s => rfl
  · intro pnum df
    rw [DBG.merge_concepto_lines, PS.merge_concepto_lines, dbg_mergeLoopAux_eq]

/-! ### Rule matcher characterization -/

theorem allKwMatchB_iff (nfkd : Char → List Char) (c : String) (r : PS.Rule) :
    PS.allKwMatchB nfkd (PS.normalize_text nfkd (some c)) r = true ↔
      ruleMatchesSpec nfkd c r := by
  unfold PS.allKwMatchB ruleMatchesSpec pyInB
  simp [List.all_eq_true]

theorem applyLoop_eq_find (nfkd : Char → List Char) (c : String) :
    ∀ rules : List PS.Rule,
      PS.applyLoop nfkd (PS.normalize_text nfkd (some c)) rules =
        (rules.find? (fun r => decide (ruleMatchesSpec nfkd c r))).map PS.Rule.template := by
  intro rules
  induction rules with
  | nil => rfl
  | cons r rs ih =>
    by_cases h : PS.allKwMatchB nfkd (PS.normalize_text nfkd (some c)) r
    · have hd : decide (ruleMatchesSpec nfkd c r) = true :=
        decide_eq_true ((allKwMatchB_iff nfkd c r).mp h)
      rw [PS.applyLoop, if_pos h]
      simp [List.find?_cons, hd]
    · have hd : decide (ruleMatchesSpec nfkd c r) = false := by
        simp only [decide_eq_false_iff_not]
        exact fun hm => h ((allKwMatchB_iff nfkd c r).mpr hm)
      rw [PS.applyLoop, if_neg h, ih]
      simp [List.find?_cons, hd]

/-- Claim C2: for every concepto string and priority-sorted rule
sequence, `apply_rules` normalizes the concepto and returns the first
rule's template whose comma-separated keywords, each individually
normalized, are all substrings of it (AND-semantics, substring
containment), and the original unnormalized concepto when no rule
matches. -/
theorem claim2_rule_matching :
    ∀ (nfkd : Char → List Char) (concepto : String) (rules : List PS.Rule),
      List.Pairwise (fun a b => a.priority ≤ b.priority) rules →
      PS.apply_rules nfkd concepto rules =
        ((rules.find? (fun r => decide (ruleMatchesSpec nfkd concepto r))).map
          PS.Rule.template).getD concepto := by
  intro nfkd c rules _
  unfold PS.apply_rules
  rw [applyLoop_eq_find]
  cases rules.find? (fun r => decide (ruleMatchesSpec nfkd c r)) <;> rfl

/-- The specification's example rulebook. -/
def exRules : List PS.Rule :=
  [⟨1, "pago,proveedor", "Pago a Proveedor"⟩, ⟨2, "pago", "Pago Generico"⟩]

/-- Witness for claim C2: the example rulebook is priority-sorted and
the theorem computes the matcher's output on `"PAGO A PROVEEDOR X"`. -/
theorem claim2_rule_matching_witness :
    List.Pairwise (fun a b => a.priority ≤ b.priority) exRules ∧
    PS.apply_rules nfkdStd "PAGO A PROVEEDOR X" exRules =
      ((exRules.find? (fun r => decide (ruleMatchesSpec nfkdStd "PAGO A PROVEEDOR X" r))).map
        PS.Rule.template).getD "PAGO A PROVEEDOR X" :=
  ⟨by decide, claim2_rule_matching nfkdStd "PAGO A PROVEEDOR X" exRules (by decide)⟩

/-- Claim C9: a rule whose `Keywords` cell is the empty string splits
into one empty keyword and matches every concepto, so whenever the rule
set contains such a rule the fall-through (returning the original
concepto) is never taken: `apply_rules` returns the first matching
rule's template. -/
theorem claim9_empty_keywords_rule :
    ∀ (nfkd : Char → List Char) (concepto : String) (rules : List PS.Rule),
      (∃ r ∈ rules, r.keywords = "") →
      ∃ r : PS.Rule,
        rules.find? (fun r => decide (ruleMatchesSpec nfkd concepto r)) = some r ∧
        r ∈ rules ∧ ruleMatchesSpec nfkd concepto r ∧
        PS.apply_rules nfkd concepto rules = r.template := by
  intro nfkd c rules h
  obtain ⟨r0, hr0, hk⟩ := h
  have hmatch : ruleMatchesSpec nfkd c r0 := by
    intro kw hkw
    rw [hk] at hkw
    have hd : ("" : String).data = [] := rfl
    rw [hd] at hkw
    simp only [splitOnChar, List.mem_singleton] at hkw
    subst hkw
    exact List.nil_infix
  have hsome : (rules.find? (fun r => decide (ruleMatchesSpec nfkd c r))).isSome :=
    List.find?_isSome.mpr ⟨r0, hr0, decide_eq_true hmatch⟩
  obtain ⟨r, hr⟩ := Option.isSome_iff_exists.mp hsome
  refine ⟨r, hr, List.mem_of_find?_eq_some hr, ?_, ?_⟩
  · have := List.find?_some hr
    simpa using this
  · unfold PS.apply_rules
    rw [applyLoop_eq_find, hr]
    rfl

/-- Witness for claim C9: a one-rule rulebook with an empty `Keywords`
cell captures every concepto. -/
theorem claim9_empty_keywords_rule_witness :
    (∃ r ∈ [(⟨1, "", "Todo"⟩ : PS.Rule)], r.keywords = "") ∧
    ∃ r : PS.Rule,
      [(⟨1, "", "Todo"⟩ : PS.Rule)].find?
        (fun r => decide (ruleMatchesSpec nfkdStd "DEPOSITO" r)) = some r ∧
      r ∈ [(⟨1, "", "Todo"⟩ : PS.Rule)] ∧ ruleMatchesSpec nfkdStd "DEPOSITO" r ∧
      PS.apply_rules nfkdStd "DEPOSITO" [(⟨1, "", "Todo"⟩ : PS.Rule)] = r.template :=
  ⟨⟨⟨1, "", "Todo"⟩, by simp, rfl⟩,
   claim9_empty_keywords_rule nfkdStd "DEPOSITO" [⟨1, "", "Todo"⟩]
     ⟨⟨1, "", "Todo"⟩, by simp, rfl⟩⟩

/-! ### Header detection characterization -/

theorem rowQualB_eq (nfkd : Char → List Char) (row : List Cell) :
    PS.rowQualB nfkd row = decide (rowQualifies nfkd row) := by
  by_cases h : rowQualifies nfkd row
  · rw [decide_eq_true h]
    unfold PS.rowQualB pyInB
    rw [List.all_eq_true]
    intro req hreq
    exact decide_eq_true (h req hreq)
  · rw [decide_eq_false h]
    by_contra hb
    simp only [Bool.not_eq_false] at hb
    unfold PS.rowQualB pyInB at hb
    rw [List.all_eq_true] at hb
    exact h (fun req hreq => of_decide_eq_true (hb req hreq))

theorem headerScan_eq_find (nfkd : Char → List Char) (t : RawTable) :
    ∀ is : List Nat,
      PS.headerScan nfkd t is = is.find? (fun i => PS.rowQualB nfkd (t.getD i [])) := by
  intro is
  induction is with
  | nil => rfl
  | cons i js ih =>
    by_cases h : PS.rowQualB nfkd (t.getD i [])
    · rw [PS.headerScan, if_pos h]
      simp only [List.getD, List.get?_eq_getElem?] at h
      simp [List.find?_cons, h]
    · rw [PS.headerScan, if_neg h, ih]
      simp only [Bool.not_eq_true] at h
      simp only [List.getD, List.get?_eq_getElem?] at h
      simp [List.find?_cons, h]

/-- Claim C3: for every non-empty raw table, only the first five rows
are examined; a row qualifies as header exactly when every normalized
required label is a substring of its space-joined normalized cells; the
first qualifying row's normalized cells become the column labels with
exactly the rows strictly after it as data rows; and with no qualifying
row among the first five the table is discarded. -/
theorem claim3_header_detection :
    ∀ (nfkd : Char → List Char) (t : RawTable), t ≠ [] →
      PS.processTable nfkd t = processTableSpec nfkd t := by
  intro nfkd t _
  unfold PS.processTable processTableSpec
  rw [headerScan_eq_find]
  have hp : (fun i => PS.rowQualB nfkd (t.getD i [])) =
      (fun i => decide (rowQualifies nfkd (t.getD i []))) :=
    funext fun i => rowQualB_eq nfkd (t.getD i [])
  rw [hp]

/-- The header-detection example table of the specification. -/
def ex3Table : RawTable :=
  [[some "Estado de Cuenta", none, none, none, none],
   [some "Dia", some "Concepto", some "Cargos", some "Abonos", some "Saldo"],
   [some "1", some "PAGO", some "100.00", some "", some "900.00"]]

/-- Witness for claim C3: the example table is non-empty and the source
header detector agrees with the claim-side one on it. -/
theorem claim3_header_detection_witness :
    ex3Table ≠ [] ∧ PS.processTable nfkdStd ex3Table = processTableSpec nfkdStd ex3Table :=
  ⟨by decide, claim3_header_detection nfkdStd ex3Table (by decide)⟩

/-! ### Page-scan characterization -/

/-- First page at or after 1-based position `n` whose normalized text
contains the marker. -/
def firstMarkedFrom (nfkd : Char → List Char) (m : String) (n : Nat)
    (pages : List String) : Option Nat :=
  ((pages.enumFrom n).find?
    (fun q => pyInB m (PS.normalize_text nfkd (some q.2)))).map Prod.fst

/-- Last page at or after 1-based position `n` whose normalized text
contains the marker. -/
def lastMarkedFrom (nfkd : Char → List Char) (m : String) (n : Nat)
    (pages : List String) : Option Nat :=
  ((pages.enumFrom n).reverse.find?
    (fun q => pyInB m (PS.normalize_text nfkd (some q.2)))).map Prod.fst

theorem firstMarkedFrom_cons (nfkd : Char → List Char) (m : String) (n : Nat)
    (p : String) (ps : List String) :
    firstMarkedFrom nfkd m n (p :: ps) =
      if pyInB m (PS.normalize_text nfkd (some p)) then some n
      else firstMarkedFrom nfkd m (n + 1) ps := by
  unfold firstMarkedFrom
  rw [List.enumFrom_cons]
  by_cases h : pyInB m (PS.normalize_text nfkd (some p))
  · simp [List.find?_cons, h]
  · simp only [Bool.not_eq_true] at h
    simp [List.find?_cons, h]

theorem lastMarkedFrom_cons (nfkd : Char → List Char) (m : String) (n : Nat)
    (p : String) (ps : List String) :
    lastMarkedFrom nfkd m n (p :: ps) =
      (lastMarkedFrom nfkd m (n + 1) ps).or
        (if pyInB m (PS.normalize_text nfkd (some p)) then some n else none) := by
  unfold lastMarkedFrom
  rw [List.enumFrom_cons, List.reverse_cons, List.find?_append, Option.map_or']
  by_cases h : pyInB m (PS.normalize_text nfkd (some p))
  · simp [List.find?_cons, h]
  · simp only [Bool.not_eq_true] at h
    simp [List.find?_cons, h]

theorem scanAux_eq (nfkd : Char → List Char) (sm em : String) :
    ∀ (ps : List String) (n : Nat) (s? e? : Option Nat),
      PS.scanAux nfkd sm em n (s?, e?) ps =
        (s?.or (firstMarkedFrom nfkd sm n ps),
         (lastMarkedFrom nfkd em n ps).or e?) := by
  intro ps
  induction ps with
  | nil =>
    intro n s? e?
    simp [PS.scanAux, firstMarkedFrom, lastMarkedFrom, List.enumFrom]
  | cons p ps ih =>
    intro n s? e?
    rw [PS.scanAux, ih, firstMarkedFrom_cons, lastMarkedFrom_cons]
    rw [Prod.mk.injEq]
    constructor
    · cases s? with
      | some v => simp
      | none =>
        by_cases h : pyInB sm (PS.normalize_text nfkd (some p))
        · simp [h]
        · simp only [Bool.not_eq_true] at h
          simp [h]
    · rw [Option.or_assoc]
      by_cases h : pyInB em (PS.normalize_text nfkd (some p))
      · simp [h]
      · simp only [Bool.not_eq_true] at h
        simp [h]

/-- The page-range example document: page 3 carries the start marker
(and an end marker), page 5 carries the last end marker. -/
def ex4Pages : List String :=
  ["pagina uno", "pagina dos", "saldo inicial y saldo minimo requerido",
   "pagina cuatro", "otra vez saldo minimo requerido"]

/-- Claim C4: pages are scanned in order from page 1; the detected start
is the first (lowest-numbered) page whose normalized text contains the
normalized marker "saldo inicial" and the detected end is the last
(highest-numbered) page containing the normalized marker
"saldo minimo requerido"; on the example document with the start marker
on page 3 and end markers on pages 3 and 5 the detected pair is
`(3, 5)`. -/
theorem claim4_page_range_detection :
    (∀ (nfkd : Char → List Char) (pages : List String),
      PS.scanPages nfkd pages =
        (firstPageWith nfkd (PS.normalize_text nfkd (some "saldo inicial")) pages,
         lastPageWith nfkd (PS.normalize_text nfkd (some "saldo minimo requerido")) pages)) ∧
    PS.scanPages nfkdStd ex4Pages = (some 3, some 5) := by
  constructor
  · intro nfkd pages
    unfold PS.scanPages firstPageWith lastPageWith
    rw [scanAux_eq, Option.none_or, Option.or_none]
    rfl
  · decide

theorem ftt_ok_unfold (nfkd : Char → List Char) (pages : List String)
    (extract : Nat → Nat → Except Unit (List RawTable)) :
    PS.find_transaction_tables nfkd (.ok pages) extract =
      match PS.scanPages nfkd pages with
      | (some s, some e) =>
        if e < s then []
        else
          match extract s e with
          | .error _ => []
          | .ok ts =>
            ts.filterMap (fun t => if t.isEmpty then none else PS.processTable nfkd t)
      | (_, _) => [] := rfl

/-- Claim C6: a document whose read fails, or whose scanned page range
has an unset start, an unset end, or an end before the start, yields
zero tables and zero Transactions; and the run processes documents
independently — the i-th outcome is a function of the i-th document
alone. -/
theorem claim6_document_soft_failure :
    ∀ (nfkd : Char → List Char) (pnum : Cell → Bool) (rules : List PS.Rule)
      (extract : Nat → Nat → Except Unit (List RawTable)),
      (PS.find_transaction_tables nfkd (.error ()) extract = [] ∧
        PS.processDocument nfkd pnum rules (.error ()) extract = none) ∧
      (∀ pages : List String,
        ((PS.scanPages nfkd pages).1 = none ∨ (PS.scanPages nfkd pages).2 = none ∨
          ∃ s e, PS.scanPages nfkd pages = (some s, some e) ∧ e < s) →
        PS.find_transaction_tables nfkd (.ok pages) extract = [] ∧
          PS.processDocument nfkd pnum rules (.ok pages) extract = none) ∧
      (∀ (docs : List (Except Unit (List String))) (i : Nat),
        (PS.runAll nfkd pnum rules extract docs)[i]? =
          (docs[i]?).map (fun d => PS.processDocument nfkd pnum rules d extract)) := by
  intro nfkd pnum rules extract
  refine ⟨⟨rfl, rfl⟩, ?_, ?_⟩
  · intro pages h
    rcases hsp : PS.scanPages nfkd pages with ⟨s?, e?⟩
    have hbase : PS.find_transaction_tables nfkd (.ok pages) extract = [] := by
      rw [ftt_ok_unfold, hsp]
      rcases h with h1 | h1 | ⟨s, e, hp, hlt⟩
      · rw [hsp] at h1
        simp only at h1
        subst h1
        cases e? <;> rfl
      · rw [hsp] at h1
        simp only at h1
        subst h1
        cases s? <;> rfl
      · rw [hsp] at hp
        injection hp with hp1 hp2
        subst hp1
        subst hp2
        simp [hlt]
    refine ⟨hbase, ?_⟩
    unfold PS.processDocument
    rw [hbase]
    rfl
  · intro docs i
    unfold PS.runAll
    rw [List.getElem?_map]

/-- Witness for claim C6: a document whose only end-marker page precedes
its only start-marker page yields zero tables and zero Transactions. -/
theorem claim6_document_soft_failure_witness :
    PS.find_transaction_tables nfkdStd
        (.ok ["saldo minimo requerido", "saldo inicial"]) (fun _ _ => .error ()) = [] ∧
      PS.processDocument nfkdStd pdIsNumeric []
        (.ok ["saldo minimo requerido", "saldo inicial"]) (fun _ _ => .error ()) = none :=
  (claim6_document_soft_failure nfkdStd pdIsNumeric [] (fun _ _ => .error ())).2.1
    ["saldo minimo requerido", "saldo inicial"]
    (Or.inr (Or.inr ⟨2, 1, by decide, by decide⟩))

/-- A raw table whose header row carries all five required labels inside
a single cell. -/
def ex10Table : RawTable :=
  [[some "Dia Concepto Cargos Abonos Saldo"], [some "7"]]

/-- The normalized table the header detector makes of `ex10Table`: one
column whose label is the whole joined header string. -/
def ex10DF : DF :=
  ⟨["dia concepto cargos abonos saldo"],
   [[("dia concepto cargos abonos saldo", some "7")]]⟩

/-- Claim C10: passing header detection does not guarantee columns named
exactly `dia` and `concepto` — a qualifying header row with all required
labels inside one cell produces a normalized table with neither column,
and `merge_concepto_lines` then passes that table through unmerged. -/
theorem claim10_header_merge_gap :
    rowQualifies nfkdStd [some "Dia Concepto Cargos Abonos Saldo"] ∧
    PS.processTable nfkdStd ex10Table = some ex10DF ∧
    "dia" ∉ ex10DF.columns ∧ "concepto" ∉ ex10DF.columns ∧
    PS.merge_concepto_lines pdIsNumeric ex10DF = ex10DF := by
  exact ⟨by decide, by decide, by decide, by decide, by decide⟩

/-! ### Normalizer: character-level facts -/

theorem char_toNat_ofNat_of_le {n : Nat} (h : n ≤ 122) : (Char.ofNat n).toNat = n := by
  have hv : n.isValidChar := Or.inl (by omega)
  rw [Char.ofNat, dif_pos hv]
  rfl

theorem toLower_toNat_le (c : Char) (h : c.toNat ≤ 127) : (Char.toLower c).toNat ≤ 127 := by
  simp only [Char.toLower]
  split
  · next hc => rw [char_toNat_ofNat_of_le (by omega)]; omega
  · exact h

theorem toLower_idem (c : Char) : Char.toLower (Char.toLower c) = Char.toLower c := by
  by_cases h : 65 ≤ c.toNat ∧ c.toNat ≤ 90
  · have h1 : Char.toLower c = Char.ofNat (c.toNat + 32) := by
      simp only [Char.toLower]
      rw [if_pos ⟨h.1, h.2⟩]
    have h2 : (Char.ofNat (c.toNat + 32)).toNat = c.toNat + 32 :=
      char_toNat_ofNat_of_le (by omega)
    rw [h1]
    simp only [Char.toLower]
    rw [if_neg]
    rw [h2]
    omega
  · have h1 : Char.toLower c = c := by
      simp only [Char.toLower]
      rw [if_neg]
      exact fun hc => h ⟨hc.1, hc.2⟩
    rw [h1, h1]

/-! ### Normalizer: word-splitting facts -/

theorem pyWordsAux_nil (cur : List Char) :
    pyWordsAux cur [] = if cur.isEmpty then [] else [cur] := rfl

theorem pyWordsAux_cons (cur : List Char) (c : Char) (cs : List Char) :
    pyWordsAux cur (c :: cs) =
      if isPySpace c then
        (if cur.isEmpty then pyWordsAux [] cs else cur :: pyWordsAux [] cs)
      else pyWordsAux (cur ++ [c]) cs := rfl

theorem pyWordsAux_mem_sub :
    ∀ (l cur : List Char) (w : List Char), w ∈ pyWordsAux cur l →
      ∀ c ∈ w, c ∈ cur ∨ c ∈ l := by
  intro l
  induction l with
  | nil =>
    intro cur w hw c hc
    rw [pyWordsAux_nil] at hw
    split at hw
    · exact absurd hw (List.not_mem_nil w)
    · rw [List.mem_singleton] at hw
      subst hw
      exact Or.inl hc
  | cons a as ih =>
    intro cur w hw c hc
    rw [pyWordsAux_cons] at hw
    by_cases ha : isPySpace a
    · rw [if_pos ha] at hw
      split at hw
      · rcases ih [] w hw c hc with h | h
        · exact absurd h (List.not_mem_nil c)
        · exact Or.inr (List.mem_cons_of_mem a h)
      · rcases List.mem_cons.mp hw with hw' | hw'
        · subst hw'
          exact Or.inl hc
        · rcases ih [] w hw' c hc with h | h
          · exact absurd h (List.not_mem_nil c)
          · exact Or.inr (List.mem_cons_of_mem a h)
    · rw [if_neg ha] at hw
      rcases ih (cur ++ [a]) w hw c hc with h | h
      · rcases List.mem_append.mp h with h' | h'
        · exact Or.inl h'
        · rw [List.mem_singleton] at h'
          rw [h']
          exact Or.inr (List.mem_cons_self a as)
      · exact Or.inr (List.mem_cons_of_mem a h)

theorem pyWordsAux_good :
    ∀ (l cur : List Char), (∀ c ∈ cur, isPySpace c = false) →
      ∀ w ∈ pyWordsAux cur l, w ≠ [] ∧ ∀ c ∈ w, isPySpace c = false := by
  intro l
  induction l with
  | nil =>
    intro cur hcur w hw
    rw [pyWordsAux_nil] at hw
    split at hw
    · exact absurd hw (List.not_mem_nil w)
    · next hc =>
      rw [List.mem_singleton] at hw
      subst hw
      refine ⟨?_, hcur⟩
      intro he
      rw [he] at hc
      exact hc rfl
  | cons a as ih =>
    intro cur hcur w hw
    rw [pyWordsAux_cons] at hw
    by_cases ha : isPySpace a
    · rw [if_pos ha] at hw
      split at hw
      · exact ih [] (by intro c hc; exact absurd hc (List.not_mem_nil c)) w hw
      · next hc =>
        rcases List.mem_cons.mp hw with hw' | hw'
        · subst hw'
          refine ⟨?_, hcur⟩
          intro he
          rw [he] at hc
          exact hc rfl
        · exact ih [] (by intro c hc'; exact absurd hc' (List.not_mem_nil c)) w hw'
    · rw [if_neg ha] at hw
      refine ih (cur ++ [a]) ?_ w hw
      intro c hcm
      rcases List.mem_append.mp hcm with h' | h'
      · exact hcur c h'
      · rw [List.mem_singleton] at h'
        subst h'
        exact Bool.not_eq_true _ ▸ (by simpa using ha)

theorem pyWordsAux_append_word :
    ∀ (w : List Char), (∀ c ∈ w, ¬(isPySpace c = true)) →
      ∀ (cur cs : List Char), pyWordsAux cur (w ++ cs) = pyWordsAux (cur ++ w) cs := by
  intro w
  induction w with
  | nil => intro _ cur cs; simp
  | cons a as ih =>
    intro h cur cs
    have ha : ¬(isPySpace a = true) := h a (List.mem_cons_self a as)
    have has : ∀ c ∈ as, ¬(isPySpace c = true) := fun c hc => h c (List.mem_cons_of_mem a hc)
    rw [List.cons_append, pyWordsAux_cons, if_neg ha, ih has (cur ++ [a]) cs,
      List.append_assoc]
    rfl

theorem pyWords_joinWords :
    ∀ ws : List (List Char),
      (∀ w ∈ ws, w ≠ [] ∧ ∀ c ∈ w, ¬(isPySpace c = true)) →
      pyWords (joinWords ws) = ws := by
  intro ws
  induction ws with
  | nil => intro _; rfl
  | cons w ws ih =>
    intro h
    have hw := h w (List.mem_cons_self w ws)
    have hwe : ¬(w.isEmpty = true) := by
      intro he
      exact hw.1 (List.isEmpty_iff.mp he)
    cases ws with
    | nil =>
      show pyWordsAux [] (joinWords [w]) = [w]
      have h0 : joinWords [w] = w ++ [] := (List.append_nil w).symm
      rw [h0, pyWordsAux_append_word w hw.2 [] [], List.nil_append, pyWordsAux_nil,
        if_neg hwe]
    | cons w' ws' =>
      show pyWordsAux [] (joinWords (w :: w' :: ws')) = w :: w' :: ws'
      have hj : joinWords (w :: w' :: ws') = w ++ ' ' :: joinWords (w' :: ws') := rfl
      rw [hj, pyWordsAux_append_word w hw.2 [] (' ' :: joinWords (w' :: ws')),
        List.nil_append, pyWordsAux_cons, if_pos (by decide : isPySpace ' ' = true),
        if_neg hwe]
      have hrest := ih (fun v hv => h v (List.mem_cons_of_mem w hv))
      rw [show pyWordsAux [] (joinWords (w' :: ws')) =
        pyWords (joinWords (w' :: ws')) from rfl, hrest]

theorem joinWords_mem :
    ∀ (ws : List (List Char)) (c : Char), c ∈ joinWords ws →
      (∃ w ∈ ws, c ∈ w) ∨ c = ' ' := by
  intro ws
  induction ws with
  | nil => intro c hc; exact absurd hc (List.not_mem_nil c)
  | cons w ws ih =>
    intro c hc
    cases ws with
    | nil =>
      exact Or.inl ⟨w, List.mem_cons_self w [], hc⟩
    | cons w' ws' =>
      have hj : joinWords (w :: w' :: ws') = w ++ ' ' :: joinWords (w' :: ws') := rfl
      rw [hj] at hc
      rcases List.mem_append.mp hc with h | h
      · exact Or.inl ⟨w, List.mem_cons_self w _, h⟩
      · rcases List.mem_cons.mp h with h' | h'
        · exact Or.inr h'
        · rcases ih c h' with ⟨v, hv, hcv⟩ | h''
          · exact Or.inl ⟨v, List.mem_cons_of_mem w hv, hcv⟩
          · exact Or.inr h''

/-! ### Normalizer: idempotence and ASCII-onliness -/

theorem flatMap_id_of_mem (f : Char → List Char) :
    ∀ l : List Char, (∀ c ∈ l, f c = [c]) → l.flatMap f = l := by
  intro l
  induction l with
  | nil => intro _; rfl
  | cons c cs ih =>
    intro h
    rw [List.flatMap_cons, h c (List.mem_cons_self c cs),
      ih (fun d hd => h d (List.mem_cons_of_mem c hd)), List.singleton_append]

theorem map_id_of_mem (f : Char → Char) :
    ∀ l : List Char, (∀ c ∈ l, f c = c) → l.map f = l := by
  intro l
  induction l with
  | nil => intro _; rfl
  | cons c cs ih =>
    intro h
    rw [List.map_cons, h c (List.mem_cons_self c cs),
      ih (fun d hd => h d (List.mem_cons_of_mem c hd))]

theorem normalize_some_data (nfkd : Char → List Char) (s : String) :
    (PS.normalize_text nfkd (some s)).data =
      joinWords (pyWords (((s.data.flatMap nfkd).filter
        (fun c => decide (c.toNat ≤ 127))).map Char.toLower)) := rfl

theorem normalize_chars (nfkd : Char → List Char) (s : String) :
    ∀ c ∈ (PS.normalize_text nfkd (some s)).data,
      c.toNat ≤ 127 ∧ Char.toLower c = c := by
  intro c hc
  rw [normalize_some_data] at hc
  rcases joinWords_mem _ c hc with ⟨w, hw, hcw⟩ | hsp
  · rcases pyWordsAux_mem_sub _ [] w hw c hcw with h | h
    · exact absurd h (List.not_mem_nil c)
    · rcases List.mem_map.mp h with ⟨b, hb, hbc⟩
      have hbA : b.toNat ≤ 127 := of_decide_eq_true (List.mem_filter.mp hb).2
      rw [← hbc]
      exact ⟨toLower_toNat_le b hbA, toLower_idem b⟩
  · rw [hsp]
    exact ⟨by decide, by decide⟩

theorem normalize_words_good (nfkd : Char → List Char) (s : String) :
    ∀ w ∈ pyWords (((s.data.flatMap nfkd).filter
        (fun c => decide (c.toNat ≤ 127))).map Char.toLower),
      w ≠ [] ∧ ∀ c ∈ w, ¬(isPySpace c = true) := by
  intro w hw
  have hg := pyWordsAux_good _ [] (fun c hc => absurd hc (List.not_mem_nil c)) w hw
  refine ⟨hg.1, fun c hc h' => ?_⟩
  rw [hg.2 c hc] at h'
  exact Bool.false_ne_true h'

theorem normalize_text_idem (nfkd : Char → List Char)
    (hascii : ∀ c : Char, c.toNat ≤ 127 → nfkd c = [c]) (x : Option String) :
    PS.normalize_text nfkd (some (PS.normalize_text nfkd x)) =
      PS.normalize_text nfkd x := by
  cases x with
  | none => rfl
  | some s =>
    have hchars := normalize_chars nfkd s
    have h1 : (PS.normalize_text nfkd (some s)).data.flatMap nfkd =
        (PS.normalize_text nfkd (some s)).data :=
      flatMap_id_of_mem nfkd _ (fun c hc => hascii c (hchars c hc).1)
    have h2 : (PS.normalize_text nfkd (some s)).data.filter
        (fun c => decide (c.toNat ≤ 127)) = (PS.normalize_text nfkd (some s)).data :=
      List.filter_eq_self.mpr (fun c hc => decide_eq_true (hchars c hc).1)
    have h3 : (PS.normalize_text nfkd (some s)).data.map Char.toLower =
        (PS.normalize_text nfkd (some s)).data :=
      map_id_of_mem Char.toLower _ (fun c hc => (hchars c hc).2)
    apply String.ext
    rw [normalize_some_data nfkd (PS.normalize_text nfkd (some s)), h1, h2, h3,
      normalize_some_data nfkd s,
      pyWords_joinWords _ (normalize_words_good nfkd s)]

/-- Claim C5: the text normalizer is idempotent and ASCII-only — for
every per-character decomposition that (like Unicode NFKD) fixes ASCII
characters, `normalize(normalize(x)) = normalize(x)`; every character of
a normalized string is ASCII and already lowercase; and `None` input
yields the empty string. -/
theorem claim5_normalize_idempotent_ascii :
    ∀ nfkd : Char → List Char, (∀ c : Char, c.toNat ≤ 127 → nfkd c = [c]) →
      (∀ x : Option String,
        PS.normalize_text nfkd (some (PS.normalize_text nfkd x)) =
          PS.normalize_text nfkd x) ∧
      (∀ (x : Option String) (c : Char), c ∈ (PS.normalize_text nfkd x).data →
        c.toNat ≤ 127 ∧ Char.toLower c = c) ∧
      PS.normalize_text nfkd none = "" := by
  intro nfkd hascii
  refine ⟨normalize_text_idem nfkd hascii, ?_, rfl⟩
  intro x c hc
  cases x with
  | none => exact absurd hc (List.not_mem_nil c)
  | some s => exact normalize_chars nfkd s c hc

/-- Witness for claim C5: the concrete decomposition `nfkdStd` fixes
ASCII, and the theorem makes the normalizer idempotent on a concrete
accented, oddly-spaced input. -/
theorem claim5_normalize_idempotent_ascii_witness :
    PS.normalize_text nfkdStd (some (PS.normalize_text nfkdStd (some "  SALDO  Mínimo   Requerido "))) =
      PS.normalize_text nfkdStd (some "  SALDO  Mínimo   Requerido ") :=
  (claim5_normalize_idempotent_ascii nfkdStd
    (fun c hc => by rw [nfkdStd, if_pos hc])).1 (some "  SALDO  Mínimo   Requerido ")
